import Mathlib

/-!
# Verification of the ECR cleanup tool (src/main.py)

Shallow embedding of the decision logic of `src/main.py`:

* `convert_duration_to_timedelta` — the duration parser (lines 64-73).  Python
  exceptions are modelled with `Except`: the `AttributeError` raised when
  `re.search(r'\d+', s)` returns `None` becomes `DurationError.noInteger`, the
  explicit `ValueError` becomes `DurationError.invalidDuration`.  A `timedelta`
  is modelled as its integer number of days.
* `processRepository` — the per-repository part of `discover_delete_images`
  (lines 110-180).  Time instants (`datetime` values) are modelled as integers;
  comparison of timezone-aware datetimes does not depend on the timezone
  attached, so `datetime.now(tz=...)` is modelled by `nowAt i`, the instant the
  clock shows at iteration `i` of the loop over the sorted tagged images.
  The regular-expression tests `ignore_tags_regex.search(tag) is None` and
  `re.search(ignore_repo_regex, uri)` are modelled by opaque boolean functions
  `Policy.ignoreTag` / `Policy.ignoreRepo` (true when the regex matches).
  The module-level variable `time_limit` matters only within one repository:
  a stale value from a previous repository can be read only when the current
  repository has no tagged images, in which case the deletion loop body never
  runs; the embedding therefore threads `time_limit` as an `Option Int` local
  to the repository.
* `delete_images` / `chunks` — the deletion executor (lines 193-222).  Calls to
  `batch_delete_image` and the printed dry-run/batch reports are collected in
  an `ExecResult` value instead of being performed.  The counter `i` of the
  source is recorded as the batch number of each chunk.
* `parseDryRun` — the DRYRUN environment parsing of the configuration loader
  (lines 40-47); the argument is the raw environment value (`none` = unset).
-/

set_option maxRecDepth 8192
set_option maxHeartbeats 2000000

namespace EcrCleanup

/-- One entry of the `imageDetails` answers of the registry: digest, the
`imageTags` field (absent for untagged images, mirroring `'imageTags' in image`),
and the push timestamp. -/
structure ImageDetail where
  imageDigest : String
  imageTags : Option (List String)
  imagePushedAt : Int
deriving DecidableEq

/-- Repository metadata as used by `discover_delete_images`. -/
structure Repository where
  repositoryUri : String
  registryId : String
  repositoryName : String
deriving DecidableEq

/-- One entry of the `deletetag` report list: the dict
`{"imageUrl": ..., "pushedAt": ...}` of line 167. -/
structure TagDescriptor where
  imageUrl : String
  pushedAt : Int
deriving DecidableEq

/-- The output of the per-repository classification: the `deletesha` digests
(each source dict `{'imageDigest': d}` represented by `d`) and the `deletetag`
descriptors. -/
structure DeletionPlan where
  digests : List String
  descriptors : List TagDescriptor
deriving DecidableEq

/-- The run configuration: IMAGES_TO_KEEP, the parsed IMAGES_KEEP_DURATION
timedelta (in days), and the two compiled regexes as match predicates. -/
structure Policy where
  imagesToKeep : Nat
  keepDuration : Int
  ignoreTag : String → Bool
  ignoreRepo : String → Bool

/-- Source `append_to_list` (lines 183-185): append a digest unless already
present. -/
def append_to_list (image_digest_list : List String) (repo_id : String) : List String :=
  if repo_id ∈ image_digest_list then image_digest_list else image_digest_list ++ [repo_id]

/-- Source `append_to_tag_list` (lines 188-190): append a descriptor unless
already present. -/
def append_to_tag_list (tag_list : List TagDescriptor) (tag_id : TagDescriptor) :
    List TagDescriptor :=
  if tag_id ∈ tag_list then tag_list else tag_list ++ [tag_id]

/-- Substring test on character lists: true when `needle` occurs contiguously
in the second list.  Models the Python `in` operator on strings. -/
def listContainsSub (needle : List Char) : List Char → Bool
  | [] => needle.isEmpty
  | c :: rest => needle.isPrefixOf (c :: rest) || listContainsSub needle rest

/-- Python `needle in hay` on strings. -/
def containsSubstr (needle hay : String) : Bool :=
  listContainsSub needle.toList hay.toList

/-- Stable insertion used by `sortDesc`; keeps earlier elements first among
equal keys, so the sort agrees with Python's stable
`sort(key=pushedAt, reverse=True)`. -/
def insertDesc (x : ImageDetail) : List ImageDetail → List ImageDetail
  | [] => [x]
  | y :: ys =>
    if y.imagePushedAt ≤ x.imagePushedAt then x :: y :: ys else y :: insertDesc x ys

/-- The stable descending sort of line 136. -/
def sortDesc : List ImageDetail → List ImageDetail
  | [] => []
  | x :: xs => insertDesc x (sortDesc xs)

/-- The pagination loop of lines 124-131, restricted to its effect on
`deletesha`: every image lacking the `imageTags` key has its digest appended
(with deduplication, via `append_to_list`). -/
def untaggedDigests : List ImageDetail → List String → List String
  | [], ds => ds
  | img :: rest, ds =>
    untaggedDigests rest
      (match img.imageTags with
       | some _ => ds
       | none => append_to_list ds img.imageDigest)

/-- Inner loop of lines 149-152: for each tag, if `uri:tag` is running, append
the image digest to `running_sha`. -/
def runningTagLoop (uri : String) (usage : List String) (digest : String) :
    List String → List String → List String
  | [], rs => rs
  | tag :: rest, rs =>
    runningTagLoop uri usage digest rest
      (if uri ++ ":" ++ tag ∈ usage then rs ++ [digest] else rs)

/-- Loop of lines 147-152 over the sorted tagged images.  On every iteration it
overwrites `time_limit` with `nowAt i - keepDuration` (line 148) and scans the
image's tags against the usage set.  The accumulator carries
(`running_sha`, current `time_limit`). -/
def runningGo (uri : String) (usage : List String) (nowAt : Nat → Int) (kd : Int) :
    Nat → List ImageDetail → List String × Option Int → List String × Option Int
  | _, [], acc => acc
  | i, img :: rest, acc =>
    runningGo uri usage nowAt kd (i + 1) rest
      (runningTagLoop uri usage img.imageDigest (img.imageTags.getD []) acc.1,
       some (nowAt i - kd))

/-- Negation of the tag guard of line 163: the tag is skipped when `"latest"`
occurs in it as a substring or the ignore regex matches it. -/
def tagSkipped (ignoreTag : String → Bool) (tag : String) : Bool :=
  containsSubstr "latest" tag || ignoreTag tag

/-- Inner loop of lines 162-168: for each surviving tag of a candidate image,
if the digest is not marked running, record digest and descriptor. -/
def deleteTagLoop (uri : String) (ignoreTag : String → Bool) (running : List String)
    (digest : String) (pushedAt : Int) :
    List String → List String × List TagDescriptor → List String × List TagDescriptor
  | [], acc => acc
  | tag :: rest, acc =>
    deleteTagLoop uri ignoreTag running digest pushedAt rest
      (if tagSkipped ignoreTag tag then acc
       else if running = [] ∨ digest ∉ running then
         (append_to_list acc.1 digest,
          append_to_tag_list acc.2 ⟨uri ++ ":" ++ tag, pushedAt⟩)
       else acc)

/-- Deletion loop of lines 160-168 (`enumerate(tagged_images)`): the first
argument of the recursion is the running `index`. -/
def deletionGo (uri : String) (ignoreTag : String → Bool) (keepCount : Nat) (timeLimit : Int)
    (running : List String) :
    Nat → List ImageDetail → List String × List TagDescriptor →
      List String × List TagDescriptor
  | _, [], acc => acc
  | index, img :: rest, acc =>
    deletionGo uri ignoreTag keepCount timeLimit running (index + 1) rest
      (if img.imagePushedAt < timeLimit ∨ index ≥ keepCount then
         deleteTagLoop uri ignoreTag running img.imageDigest img.imagePushedAt
           (img.imageTags.getD []) acc
       else acc)

/-- Per-repository body of `discover_delete_images` (lines 110-168): skip the
repository when the ignore regex matches its uri (`none`); otherwise collect
untagged digests, sort the tagged images by push time descending, scan them
against the usage set (which also fixes `time_limit`), and run the deletion
loop.  When there is no tagged image the scan leaves `time_limit` unset and the
deletion loop body never executes. -/
def processRepository (pol : Policy) (usage : List String) (nowAt : Nat → Int)
    (repo : Repository) (images : List ImageDetail) : Option DeletionPlan :=
  if pol.ignoreRepo repo.repositoryUri then none
  else
    match (runningGo repo.repositoryUri usage nowAt pol.keepDuration 0
        (sortDesc (images.filter fun im => im.imageTags.isSome)) ([], none)).2 with
    | none => some ⟨untaggedDigests images [], []⟩
    | some tl =>
      some ⟨(deletionGo repo.repositoryUri pol.ignoreTag pol.imagesToKeep tl
          (runningGo repo.repositoryUri usage nowAt pol.keepDuration 0
            (sortDesc (images.filter fun im => im.imageTags.isSome)) ([], none)).1
          0 (sortDesc (images.filter fun im => im.imageTags.isSome))
          (untaggedDigests images [], [])).1,
        (deletionGo repo.repositoryUri pol.ignoreTag pol.imagesToKeep tl
          (runningGo repo.repositoryUri usage nowAt pol.keepDuration 0
            (sortDesc (images.filter fun im => im.imageTags.isSome)) ([], none)).1
          0 (sortDesc (images.filter fun im => im.imageTags.isSome))
          (untaggedDigests images [], [])).2⟩

/-- Source `chunks` (lines 193-196): `for i in range(0, len(l), n): yield
l[i:i+n]`.  `range` with step `0` raises in Python; the function is only ever
called with `n = 100`. -/
def chunks (repo_list : List String) (chunk_size : Nat) : List (List String) :=
  if chunk_size = 0 then []
  else
    (List.range ((repo_list.length + chunk_size - 1) / chunk_size)).map
      fun k => (repo_list.drop (k * chunk_size)).take chunk_size

/-- One issued `batch_delete_image` call, together with the value the loop
counter `i` had when it was issued. -/
structure BatchCall where
  batchNumber : Nat
  registryId : String
  repositoryName : String
  imageIds : List String
deriving DecidableEq

/-- Observable behaviour of `delete_images`: the mutating calls issued, the
dry-run chunk reports (batch number and chunk, lines 214-218), and the final
descriptor report (lines 219-222). -/
structure ExecResult where
  calls : List BatchCall
  simulated : List (Nat × List String)
  report : List TagDescriptor
deriving DecidableEq

/-- Chunk loop of lines 203-218: `i` is incremented for every chunk; when not
in dry-run mode a batch delete call is issued, otherwise the chunk is reported
with its batch number. -/
def deleteLoop (dryrun : Bool) (repo_id name : String) :
    List (List String) → Nat × List BatchCall × List (Nat × List String) →
      Nat × List BatchCall × List (Nat × List String)
  | [], acc => acc
  | chunk :: rest, acc =>
    deleteLoop dryrun repo_id name rest
      (if dryrun then
         (acc.1 + 1, acc.2.1, acc.2.2 ++ [(acc.1 + 1, chunk)])
       else
         (acc.1 + 1, acc.2.1 ++ [⟨acc.1 + 1, repo_id, name, chunk⟩], acc.2.2))

/-- Source `delete_images` (lines 199-222).  The descriptor report of lines
219-222 is emitted regardless of the dry-run flag. -/
def delete_images (dryrun : Bool) (deletesha : List String) (deletetag : List TagDescriptor)
    (repo_id name : String) : ExecResult :=
  let r :=
    if deletesha.length ≥ 1 then
      deleteLoop dryrun repo_id name (chunks deletesha 100) (0, [], [])
    else (0, [], [])
  { calls := r.2.1, simulated := r.2.2,
    report := if deletetag = [] then [] else deletetag }

/-- One repository's worth of registry inventory. -/
structure RepoData where
  repo : Repository
  images : List ImageDetail

/-- Repository loop of `discover_delete_images` (lines 110-180): classify each
repository in turn, calling `delete_images` only when `deletesha` is nonempty.
`nowAt2 ri` is the clock seen while the `ri`-th repository is scanned.  The
output collects, per repository acted on, its executor result. -/
def runRegion (pol : Policy) (dryrun : Bool) (usage : List String)
    (nowAt2 : Nat → Nat → Int) :
    Nat → List RepoData → List (Repository × ExecResult) →
      List (Repository × ExecResult)
  | _, [], out => out
  | ri, rd :: rest, out =>
    runRegion pol dryrun usage nowAt2 (ri + 1) rest
      (match processRepository pol usage (nowAt2 ri) rd.repo rd.images with
       | none => out
       | some plan =>
         if plan.digests = [] then out
         else
           out ++ [(rd.repo, delete_images dryrun plan.digests plan.descriptors
             rd.repo.registryId rd.repo.repositoryName)])

/-- Failure modes of the duration parser: `noInteger` is the `AttributeError`
raised when `re.search(r'\d+', s)` finds nothing (line 65), `invalidDuration`
the `ValueError` of line 73. -/
inductive DurationError where
  | noInteger : DurationError
  | invalidDuration : String → DurationError
deriving DecidableEq

/-- Decimal value of a digit run, as computed by Python `int`. -/
def digitsToNat (ds : List Char) : Nat :=
  ds.foldl (fun n c => 10 * n + (c.toNat - 48)) 0

/-- Value of the first maximal digit run, or `none` when there is no digit:
models `re.search(r'\d+', s)` followed by `int(...)`. -/
def firstNumericRun : List Char → Option Nat
  | [] => none
  | c :: rest =>
    if c.isDigit then some (digitsToNat ((c :: rest).takeWhile Char.isDigit))
    else firstNumericRun rest

/-- Source `convert_duration_to_timedelta` (lines 64-73), with the timedelta
expressed in days (a week is 7 days, a month 30). -/
def convert_duration_to_timedelta (duration_str : String) : Except DurationError Int :=
  match firstNumericRun duration_str.toList with
  | none => Except.error DurationError.noInteger
  | some number =>
    if 'd' ∈ duration_str.toList then Except.ok (number : Int)
    else if 'w' ∈ duration_str.toList then Except.ok (7 * (number : Int))
    else if 'm' ∈ duration_str.toList then Except.ok (30 * (number : Int))
    else Except.error (DurationError.invalidDuration duration_str)

/-- True when the string contains one of the recognised unit letters. -/
def hasUnitChar (s : String) : Bool :=
  decide ('d' ∈ s.toList) || decide ('w' ∈ s.toList) || decide ('m' ∈ s.toList)

/-- True on successful parses. -/
def isOkE (e : Except DurationError Int) : Bool :=
  match e with
  | Except.ok _ => true
  | Except.error _ => false

/-- Python `str.lower()`, character by character (ASCII case folding, which is
all the DRYRUN comparison needs). -/
def lowerStr (s : String) : String :=
  String.mk (s.toList.map Char.toLower)

/-- DRYRUN parsing of the configuration loader (lines 41-47):
`os.environ.get('DRYRUN', "false").lower()` compared with `"false"`; the
result is the effective boolean DRYRUN flag. -/
def parseDryRun (env : Option String) : Bool :=
  if lowerStr (env.getD "false") = "false" then false else true

/-! ## Concrete inputs used for scenario checks -/

/-- A regex that matches nothing, as the default patterns do. -/
def noIgnore : String → Bool := fun _ => false

/-- A wall clock frozen at instant 100. -/
def now100 : Nat → Int := fun _ => 100

/-- Repository used by the concrete scenarios. -/
def repoA : Repository := ⟨"repo", "reg", "name"⟩

/-- ScenarioA: IMAGES_TO_KEEP = 2, a 90-day window. -/
def polA : Policy := ⟨2, 90, noIgnore, noIgnore⟩

/-- ScenarioA: three recent tagged images, pushed at 50 > 40 > 30. -/
def imgsA : List ImageDetail :=
  [⟨"d1", some ["t1"], 50⟩, ⟨"d2", some ["t2"], 40⟩, ⟨"d3", some ["t3"], 30⟩]

/-- ScenarioB and several witnesses: IMAGES_TO_KEEP = 100, a 1-day window. -/
def polB : Policy := ⟨100, 1, noIgnore, noIgnore⟩

/-- ScenarioB: a single image pushed 40 days before instant 100. -/
def imgsB : List ImageDetail := [⟨"d1", some ["t1"], 60⟩]

/-- Image whose only tag has "latest" as a proper substring. -/
def imgX : ImageDetail := ⟨"dx", some ["xlatest"], 0⟩

/-- Image whose only tag is running in the usage set `usageW`. -/
def imgRun : ImageDetail := ⟨"dRun", some ["run"], 5⟩

/-- Usage set containing the one tag of `imgRun` under `repoA`. -/
def usageW : List String := ["repo:run"]

/-- Retention keeping everything recent: IMAGES_TO_KEEP = 100, 90-day window. -/
def pol5 : Policy := ⟨100, 90, noIgnore, noIgnore⟩

/-- Five untagged and three recent tagged images. -/
def imgsC5 : List ImageDetail :=
  [⟨"u1", none, 1⟩, ⟨"u2", none, 2⟩, ⟨"u3", none, 3⟩, ⟨"u4", none, 4⟩, ⟨"u5", none, 5⟩,
   ⟨"t1", some ["a"], 50⟩, ⟨"t2", some ["b"], 40⟩, ⟨"t3", some ["c"], 30⟩]

/-- A clock that advances by one unit per loop iteration. -/
def nowC4 : Nat → Int := fun i => 100 + (i : Int)

/-- Two tagged images for the clock-advance check. -/
def imgsC4 : List ImageDetail := [⟨"a", some ["x"], 3⟩, ⟨"b", some ["y"], 2⟩]

/-- A 250-element list of distinct digests (the `i`-th digest repeats a
character `i` times, so all are distinct). -/
def ds250 : List String := (List.range 250).map fun i => String.mk (List.replicate i 'a')

/-- Policy ignoring exactly the repository uri "iguri". -/
def polC8 : Policy := ⟨100, 1, noIgnore, fun s => decide (s = "iguri")⟩

/-- The ignored repository. -/
def repoIg : Repository := ⟨"iguri", "rI", "nI"⟩

/-- A non-ignored repository with one stale image. -/
def repoOk : Repository := ⟨"okuri", "rO", "nO"⟩

/-- Region contents: the ignored repository first, then one that produces a
deletion. -/
def reposC8 : List RepoData :=
  [⟨repoIg, [⟨"di", some ["v"], 0⟩]⟩, ⟨repoOk, [⟨"do", some ["v"], 0⟩]⟩]

/-! ## Basic lemmas about the helper operations -/

theorem mem_append_to_list {l : List String} {x d : String} :
    d ∈ append_to_list l x ↔ d ∈ l ∨ d = x := by
  unfold append_to_list
  by_cases h : x ∈ l
  · simp only [if_pos h]
    constructor
    · exact Or.inl
    · rintro (h' | rfl)
      · exact h'
      · exact h
  · simp [if_neg h]

theorem mem_append_to_tag_list {l : List TagDescriptor} {x d : TagDescriptor} :
    d ∈ append_to_tag_list l x ↔ d ∈ l ∨ d = x := by
  unfold append_to_tag_list
  by_cases h : x ∈ l
  · simp only [if_pos h]
    constructor
    · exact Or.inl
    · rintro (h' | rfl)
      · exact h'
      · exact h
  · simp [if_neg h]

theorem running_guard_iff (rn : List String) (dg : String) :
    (rn = [] ∨ dg ∉ rn) ↔ dg ∉ rn := by
  constructor
  · rintro (rfl | h)
    · simp
    · exact h
  · exact Or.inr

theorem mem_insertDesc {x y : ImageDetail} {l : List ImageDetail} :
    x ∈ insertDesc y l ↔ x = y ∨ x ∈ l := by
  induction l with
  | nil => simp [insertDesc]
  | cons z zs ih =>
    unfold insertDesc
    by_cases h : z.imagePushedAt ≤ y.imagePushedAt
    · simp [if_pos h]
    · simp only [if_neg h, List.mem_cons, ih]
      tauto

theorem mem_sortDesc {x : ImageDetail} {l : List ImageDetail} :
    x ∈ sortDesc l ↔ x ∈ l := by
  induction l with
  | nil => simp [sortDesc]
  | cons z zs ih => simp [sortDesc, mem_insertDesc, ih]

theorem mem_untaggedDigests {d : String} :
    ∀ (images : List ImageDetail) (ds : List String),
      d ∈ untaggedDigests images ds ↔
        d ∈ ds ∨ ∃ img ∈ images, img.imageTags = none ∧ d = img.imageDigest := by
  intro images
  induction images with
  | nil => simp [untaggedDigests]
  | cons img rest ih =>
    intro ds
    unfold untaggedDigests
    cases htags : img.imageTags with
    | some tags => simp [ih, htags]
    | none =>
      simp only [ih, mem_append_to_list, htags, List.mem_cons]
      constructor
      · rintro ((h | rfl) | ⟨img', hmem, hn, rfl⟩)
        · exact Or.inl h
        · exact Or.inr ⟨img, Or.inl rfl, htags, rfl⟩
        · exact Or.inr ⟨img', Or.inr hmem, hn, rfl⟩
      · rintro (h | ⟨img', (rfl | hmem), hn, rfl⟩)
        · exact Or.inl (Or.inl h)
        · exact Or.inl (Or.inr rfl)
        · exact Or.inr ⟨img', hmem, hn, rfl⟩

theorem uri_tag_cancel {u a b : String} (h : u ++ ":" ++ a = u ++ ":" ++ b) : a = b := by
  have h2 : (u ++ ":" ++ a).data = (u ++ ":" ++ b).data := by rw [h]
  rw [String.data_append, String.data_append, String.data_append, String.data_append] at h2
  exact String.ext (List.append_cancel_left h2)

/-! ## Characterisation of the tag loop of lines 162-168 -/

theorem deleteTagLoop_fst_mem {uri : String} {ig : String → Bool} {rn : List String}
    {dg : String} {pa : Int} :
    ∀ (tags : List String) (acc : List String × List TagDescriptor) (d : String),
      d ∈ (deleteTagLoop uri ig rn dg pa tags acc).1 ↔
        d ∈ acc.1 ∨ (d = dg ∧ dg ∉ rn ∧ ∃ t ∈ tags, tagSkipped ig t = false) := by
  intro tags
  induction tags with
  | nil => intro acc d; simp [deleteTagLoop]
  | cons tag rest ih =>
    intro acc d
    unfold deleteTagLoop
    by_cases hs : tagSkipped ig tag = true
    · rw [if_pos hs, ih]
      constructor
      · rintro (h | ⟨rfl, hrn, t, ht, hts⟩)
        · exact Or.inl h
        · exact Or.inr ⟨rfl, hrn, t, List.mem_cons_of_mem _ ht, hts⟩
      · rintro (h | ⟨rfl, hrn, t, ht, hts⟩)
        · exact Or.inl h
        · rcases List.mem_cons.mp ht with rfl | ht'
          · rw [hs] at hts; exact absurd hts (by simp)
          · exact Or.inr ⟨rfl, hrn, t, ht', hts⟩
    · have hs' : tagSkipped ig tag = false := by simpa using hs
      rw [if_neg hs]
      by_cases hrn : dg ∈ rn
      · have hg : ¬(rn = [] ∨ dg ∉ rn) := fun hor => (running_guard_iff rn dg).mp hor hrn
        rw [if_neg hg, ih]
        constructor
        · rintro (h | ⟨rfl, hrn2, t, ht, hts⟩)
          · exact Or.inl h
          · exact absurd hrn hrn2
        · rintro (h | ⟨rfl, hrn2, t, ht, hts⟩)
          · exact Or.inl h
          · exact absurd hrn hrn2
      · have hg : (rn = [] ∨ dg ∉ rn) := Or.inr hrn
        rw [if_pos hg, ih]
        constructor
        · rintro (h | ⟨rfl, hrn2, t, ht, hts⟩)
          · rcases mem_append_to_list.mp h with h' | rfl
            · exact Or.inl h'
            · exact Or.inr ⟨rfl, hrn, tag, List.mem_cons_self _ _, hs'⟩
          · exact Or.inr ⟨rfl, hrn2, t, List.mem_cons_of_mem _ ht, hts⟩
        · rintro (h | ⟨rfl, hrn2, t, ht, hts⟩)
          · exact Or.inl (mem_append_to_list.mpr (Or.inl h))
          · exact Or.inl (mem_append_to_list.mpr (Or.inr rfl))

theorem deleteTagLoop_snd_mem {uri : String} {ig : String → Bool} {rn : List String}
    {dg : String} {pa : Int} :
    ∀ (tags : List String) (acc : List String × List TagDescriptor) (D : TagDescriptor),
      D ∈ (deleteTagLoop uri ig rn dg pa tags acc).2 ↔
        D ∈ acc.2 ∨ (dg ∉ rn ∧ ∃ t ∈ tags, tagSkipped ig t = false ∧
          D = ⟨uri ++ ":" ++ t, pa⟩) := by
  intro tags
  induction tags with
  | nil => intro acc D; simp [deleteTagLoop]
  | cons tag rest ih =>
    intro acc D
    unfold deleteTagLoop
    by_cases hs : tagSkipped ig tag = true
    · rw [if_pos hs, ih]
      constructor
      · rintro (h | ⟨hrn, t, ht, hts, rfl⟩)
        · exact Or.inl h
        · exact Or.inr ⟨hrn, t, List.mem_cons_of_mem _ ht, hts, rfl⟩
      · rintro (h | ⟨hrn, t, ht, hts, rfl⟩)
        · exact Or.inl h
        · rcases List.mem_cons.mp ht with rfl | ht'
          · rw [hs] at hts; exact absurd hts (by simp)
          · exact Or.inr ⟨hrn, t, ht', hts, rfl⟩
    · have hs' : tagSkipped ig tag = false := by simpa using hs
      rw [if_neg hs]
      by_cases hrn : dg ∈ rn
      · have hg : ¬(rn = [] ∨ dg ∉ rn) := fun hor => (running_guard_iff rn dg).mp hor hrn
        rw [if_neg hg, ih]
        constructor
        · rintro (h | ⟨hrn2, t, ht, hts, rfl⟩)
          · exact Or.inl h
          · exact absurd hrn hrn2
        · rintro (h | ⟨hrn2, t, ht, hts, rfl⟩)
          · exact Or.inl h
          · exact absurd hrn hrn2
      · have hg : (rn = [] ∨ dg ∉ rn) := Or.inr hrn
        rw [if_pos hg, ih]
        constructor
        · rintro (h | ⟨hrn2, t, ht, hts, rfl⟩)
          · rcases mem_append_to_tag_list.mp h with h' | rfl
            · exact Or.inl h'
            · exact Or.inr ⟨hrn, tag, List.mem_cons_self _ _, hs', rfl⟩
          · exact Or.inr ⟨hrn2, t, List.mem_cons_of_mem _ ht, hts, rfl⟩
        · rintro (h | ⟨hrn2, t, ht, hts, rfl⟩)
          · exact Or.inl (mem_append_to_tag_list.mpr (Or.inl h))
          · rcases List.mem_cons.mp ht with rfl | ht'
            · exact Or.inl (mem_append_to_tag_list.mpr (Or.inr rfl))
            · exact Or.inr ⟨hrn2, t, ht', hts, rfl⟩

/-! ## Characterisation of the deletion loop of lines 160-168 -/

theorem deletionGo_mono {uri : String} {ig : String → Bool} {kc : Nat} {tl : Int}
    {rn : List String} :
    ∀ (images : List ImageDetail) (index : Nat) (acc : List String × List TagDescriptor),
      acc.1 ⊆ (deletionGo uri ig kc tl rn index images acc).1 ∧
      acc.2 ⊆ (deletionGo uri ig kc tl rn index images acc).2 := by
  intro images
  induction images with
  | nil => intro index acc; exact ⟨List.Subset.refl _, List.Subset.refl _⟩
  | cons img rest ih =>
    intro index acc
    unfold deletionGo
    by_cases hc : (img.imagePushedAt < tl ∨ index ≥ kc)
    · rw [if_pos hc]
      have h1 := ih (index + 1)
        (deleteTagLoop uri ig rn img.imageDigest img.imagePushedAt (img.imageTags.getD []) acc)
      constructor
      · intro d hd
        exact h1.1 ((deleteTagLoop_fst_mem _ _ _).mpr (Or.inl hd))
      · intro D hD
        exact h1.2 ((deleteTagLoop_snd_mem _ _ _).mpr (Or.inl hD))
    · rw [if_neg hc]
      exact ih (index + 1) acc

theorem deletionGo_fst_sub {uri : String} {ig : String → Bool} {kc : Nat} {tl : Int}
    {rn : List String} :
    ∀ (images : List ImageDetail) (index : Nat) (acc : List String × List TagDescriptor)
      (d : String),
      d ∈ (deletionGo uri ig kc tl rn index images acc).1 →
      d ∈ acc.1 ∨ ∃ img ∈ images, d = img.imageDigest ∧ d ∉ rn ∧
        ∃ t ∈ img.imageTags.getD [], tagSkipped ig t = false := by
  intro images
  induction images with
  | nil => intro index acc d hd; exact Or.inl hd
  | cons img rest ih =>
    intro index acc d hd
    unfold deletionGo at hd
    by_cases hc : (img.imagePushedAt < tl ∨ index ≥ kc)
    · rw [if_pos hc] at hd
      rcases ih (index + 1) _ d hd with h | ⟨img', hmem, rfl, hrn, t, ht, hts⟩
      · rcases (deleteTagLoop_fst_mem _ _ _).mp h with h' | ⟨rfl, hrn, t, ht, hts⟩
        · exact Or.inl h'
        · exact Or.inr ⟨img, List.mem_cons_self _ _, rfl, hrn, t, ht, hts⟩
      · exact Or.inr ⟨img', List.mem_cons_of_mem _ hmem, rfl, hrn, t, ht, hts⟩
    · rw [if_neg hc] at hd
      rcases ih (index + 1) acc d hd with h | ⟨img', hmem, rfl, hrn, t, ht, hts⟩
      · exact Or.inl h
      · exact Or.inr ⟨img', List.mem_cons_of_mem _ hmem, rfl, hrn, t, ht, hts⟩

theorem deletionGo_snd_sub {uri : String} {ig : String → Bool} {kc : Nat} {tl : Int}
    {rn : List String} :
    ∀ (images : List ImageDetail) (index : Nat) (acc : List String × List TagDescriptor)
      (D : TagDescriptor),
      D ∈ (deletionGo uri ig kc tl rn index images acc).2 →
      D ∈ acc.2 ∨ ∃ img ∈ images, ∃ t ∈ img.imageTags.getD [], tagSkipped ig t = false ∧
        img.imageDigest ∉ rn ∧ D = ⟨uri ++ ":" ++ t, img.imagePushedAt⟩ := by
  intro images
  induction images with
  | nil => intro index acc D hD; exact Or.inl hD
  | cons img rest ih =>
    intro index acc D hD
    unfold deletionGo at hD
    by_cases hc : (img.imagePushedAt < tl ∨ index ≥ kc)
    · rw [if_pos hc] at hD
      rcases ih (index + 1) _ D hD with h | ⟨img', hmem, t, ht, hts, hrn, rfl⟩
      · rcases (deleteTagLoop_snd_mem _ _ _).mp h with h' | ⟨hrn, t, ht, hts, rfl⟩
        · exact Or.inl h'
        · exact Or.inr ⟨img, List.mem_cons_self _ _, t, ht, hts, hrn, rfl⟩
      · exact Or.inr ⟨img', List.mem_cons_of_mem _ hmem, t, ht, hts, hrn, rfl⟩
    · rw [if_neg hc] at hD
      rcases ih (index + 1) acc D hD with h | ⟨img', hmem, t, ht, hts, hrn, rfl⟩
      · exact Or.inl h
      · exact Or.inr ⟨img', List.mem_cons_of_mem _ hmem, t, ht, hts, hrn, rfl⟩

theorem deletionGo_pos {uri : String} {ig : String → Bool} {kc : Nat} {tl : Int}
    {rn : List String} :
    ∀ (images : List ImageDetail) (index : Nat) (acc : List String × List TagDescriptor)
      (j : Nat) (h : j < images.length) (t : String),
      ((images.get ⟨j, h⟩).imagePushedAt < tl ∨ index + j ≥ kc) →
      t ∈ (images.get ⟨j, h⟩).imageTags.getD [] →
      tagSkipped ig t = false →
      (images.get ⟨j, h⟩).imageDigest ∉ rn →
      (images.get ⟨j, h⟩).imageDigest ∈ (deletionGo uri ig kc tl rn index images acc).1 ∧
      (⟨uri ++ ":" ++ t, (images.get ⟨j, h⟩).imagePushedAt⟩ : TagDescriptor) ∈
        (deletionGo uri ig kc tl rn index images acc).2 := by
  intro images
  induction images with
  | nil => intro index acc j h; exact absurd h (Nat.not_lt_zero j)
  | cons img rest ih =>
    intro index acc j h t hc ht hts hrn
    cases j with
    | zero =>
      simp only [List.get] at hc ht hrn ⊢
      have hc' : img.imagePushedAt < tl ∨ index ≥ kc := by
        rcases hc with h1 | h1
        · exact Or.inl h1
        · exact Or.inr (by omega)
      unfold deletionGo
      rw [if_pos hc']
      have hmono := @deletionGo_mono uri ig kc tl rn rest (index + 1)
        (deleteTagLoop uri ig rn img.imageDigest img.imagePushedAt (img.imageTags.getD []) acc)
      constructor
      · exact hmono.1 ((deleteTagLoop_fst_mem _ _ _).mpr (Or.inr ⟨rfl, hrn, t, ht, hts⟩))
      · exact hmono.2 ((deleteTagLoop_snd_mem _ _ _).mpr (Or.inr ⟨hrn, t, ht, hts, rfl⟩))
    | succ j' =>
      have h' : j' < rest.length := Nat.lt_of_succ_lt_succ h
      rw [List.get_cons_succ] at hc ht hrn ⊢
      have hc2 : (rest.get ⟨j', h'⟩).imagePushedAt < tl ∨ (index + 1) + j' ≥ kc := by
        rcases hc with h1 | h1
        · exact Or.inl h1
        · exact Or.inr (by omega)
      unfold deletionGo
      by_cases hcImg : (img.imagePushedAt < tl ∨ index ≥ kc)
      · rw [if_pos hcImg]
        exact ih (index + 1) _ j' h' t hc2 ht hts hrn
      · rw [if_neg hcImg]
        exact ih (index + 1) acc j' h' t hc2 ht hts hrn

/-! ## Lemmas about the running-image scan of lines 147-152 -/

theorem runningTagLoop_mono {uri : String} {usage : List String} {dg : String} :
    ∀ (tags rs : List String) (d : String),
      d ∈ rs → d ∈ runningTagLoop uri usage dg tags rs := by
  intro tags
  induction tags with
  | nil => intro rs d hd; exact hd
  | cons tag rest ih =>
    intro rs d hd
    unfold runningTagLoop
    apply ih
    by_cases hu : uri ++ ":" ++ tag ∈ usage
    · rw [if_pos hu]; exact List.mem_append_left _ hd
    · rw [if_neg hu]; exact hd

theorem runningTagLoop_pos {uri : String} {usage : List String} {dg : String} :
    ∀ (tags rs : List String) (t : String),
      t ∈ tags → uri ++ ":" ++ t ∈ usage → dg ∈ runningTagLoop uri usage dg tags rs := by
  intro tags
  induction tags with
  | nil => intro rs t ht; exact absurd ht (List.not_mem_nil t)
  | cons tag rest ih =>
    intro rs t ht hu
    rcases List.mem_cons.mp ht with rfl | ht'
    · unfold runningTagLoop
      rw [if_pos hu]
      exact runningTagLoop_mono rest _ dg (List.mem_append_right _ (List.mem_singleton.mpr rfl))
    · exact ih _ t ht' hu

theorem runningGo_fst_mono {uri : String} {usage : List String} {nowAt : Nat → Int} {kd : Int} :
    ∀ (images : List ImageDetail) (i : Nat) (acc : List String × Option Int) (d : String),
      d ∈ acc.1 → d ∈ (runningGo uri usage nowAt kd i images acc).1 := by
  intro images
  induction images with
  | nil => intro i acc d hd; exact hd
  | cons img rest ih =>
    intro i acc d hd
    unfold runningGo
    exact ih (i + 1) _ d (runningTagLoop_mono _ _ d hd)

theorem runningGo_pos {uri : String} {usage : List String} {nowAt : Nat → Int} {kd : Int} :
    ∀ (images : List ImageDetail) (i : Nat) (acc : List String × Option Int)
      (img : ImageDetail) (t : String),
      img ∈ images → t ∈ img.imageTags.getD [] → uri ++ ":" ++ t ∈ usage →
      img.imageDigest ∈ (runningGo uri usage nowAt kd i images acc).1 := by
  intro images
  induction images with
  | nil => intro i acc img t hmem; exact absurd hmem (List.not_mem_nil img)
  | cons img0 rest ih =>
    intro i acc img t hmem ht hu
    rcases List.mem_cons.mp hmem with rfl | hmem'
    · unfold runningGo
      exact runningGo_fst_mono rest (i + 1) _ _ (runningTagLoop_pos _ _ t ht hu)
    · unfold runningGo
      exact ih (i + 1) _ img t hmem' ht hu

theorem runningGo_snd {uri : String} {usage : List String} {nowAt : Nat → Int} {kd : Int} :
    ∀ (images : List ImageDetail) (i : Nat) (acc : List String × Option Int),
      images ≠ [] →
      (runningGo uri usage nowAt kd i images acc).2 =
        some (nowAt (i + images.length - 1) - kd) := by
  intro images
  induction images with
  | nil => intro i acc hne; exact absurd rfl hne
  | cons img rest ih =>
    intro i acc _
    unfold runningGo
    cases hrest : rest with
    | nil => simp [runningGo]
    | cons r rs =>
      rw [← hrest]
      have hne' : rest ≠ [] := by rw [hrest]; exact List.cons_ne_nil r rs
      rw [ih (i + 1) _ hne']
      have hidx : i + 1 + rest.length - 1 = i + (img :: rest).length - 1 := by
        simp only [List.length_cons]; omega
      rw [hidx]

/-! ## Substring and suffix lemmas for the tag exemption analysis -/

theorem listContainsSub_of_suffix {needle l : List Char} (h : needle <:+ l) :
    listContainsSub needle l = true := by
  obtain ⟨p, hp⟩ := h
  induction p generalizing l with
  | nil =>
    rw [List.nil_append] at hp
    subst hp
    cases needle with
    | nil => rfl
    | cons c rest =>
      unfold listContainsSub
      rw [List.isPrefixOf_iff_prefix.mpr (List.prefix_refl _)]
      simp
  | cons c p' ih =>
    rw [List.cons_append] at hp
    subst hp
    unfold listContainsSub
    rw [ih rfl]
    simp

theorem suffix_of_suffix_append {s l₁ l₂ : List Char} (h : s <:+ l₁ ++ l₂)
    (hlen : s.length ≤ l₂.length) : s <:+ l₂ := by
  obtain ⟨p, hp⟩ := h
  have hplen : l₁.length ≤ p.length := by
    have := congrArg List.length hp
    rw [List.length_append, List.length_append] at this
    omega
  refine ⟨p.drop l₁.length, ?_⟩
  have h2 : (p ++ s).drop l₁.length = (l₁ ++ l₂).drop l₁.length := by rw [hp]
  rw [List.drop_left] at h2
  rw [List.drop_append_eq_append_drop] at h2
  have h3 : l₁.length - p.length = 0 := by omega
  rw [h3, List.drop_zero] at h2
  exact h2

theorem suffix_colon_latest {u t : String}
    (h : (":latest").toList <:+ (u ++ ":" ++ t).toList) :
    containsSubstr "latest" t = true := by
  have hdata : (u ++ ":" ++ t).toList = (u.toList ++ (":").toList) ++ t.toList := by
    show (u ++ ":" ++ t).data = (u.data ++ (":").data) ++ t.data
    rw [String.data_append, String.data_append]
  rw [hdata] at h
  by_cases hlen : (":latest").toList.length ≤ t.toList.length
  · have hsuf : (":latest").toList <:+ t.toList := suffix_of_suffix_append h hlen
    have hsuf2 : ("latest").toList <:+ t.toList := by
      refine List.IsSuffix.trans ?_ hsuf
      exact ⟨[':'], rfl⟩
    exact listContainsSub_of_suffix hsuf2
  · -- the suffix is longer than the tag: it must then contain the separator
    -- colon at a position where ":latest" has a letter, which is impossible.
    have hsuf3 : (':' :: t.toList) <:+ (":latest").toList := by
      have hform : (u.toList ++ (":").toList) ++ t.toList = u.toList ++ (':' :: t.toList) := by
        show (u.toList ++ [':']) ++ t.toList = u.toList ++ (':' :: t.toList)
        rw [List.append_assoc]
        rfl
      rw [hform] at h
      obtain ⟨p, hp⟩ := h
      have hsufl : (':' :: t.toList) <:+ p ++ (":latest").toList := by
        refine ⟨u.toList, ?_⟩
        rw [hp]
      refine suffix_of_suffix_append hsufl ?_
      simp only [List.length_cons]
      have hlt : t.toList.length < (":latest").toList.length := Nat.lt_of_not_le hlen
      have h7 : (":latest").toList.length = 7 := by decide
      omega
    obtain ⟨p, hp⟩ := hsuf3
    have hsplit : (":latest").toList = ':' :: ("latest").toList := by decide
    rw [hsplit] at hp
    cases p with
    | nil =>
      rw [List.nil_append] at hp
      have ht : t.toList = ("latest").toList := ((List.cons.injEq _ _ _ _).mp hp).2
      show listContainsSub ("latest").toList t.toList = true
      rw [ht]
      exact listContainsSub_of_suffix ⟨[], rfl⟩
    | cons c p' =>
      rw [List.cons_append] at hp
      have hp' : p' ++ ':' :: t.toList = ("latest").toList :=
        ((List.cons.injEq _ _ _ _).mp hp).2
      have hmem2 : ':' ∈ ("latest").toList := by
        rw [← hp']
        exact List.mem_append_right _ (List.mem_cons_self _ _)
      exact absurd hmem2 (by decide)

/-! ## Lemmas about the deletion executor -/

theorem chunks_length {l : List String} {n : Nat} (hn : n ≠ 0) :
    (chunks l n).length = (l.length + n - 1) / n := by
  unfold chunks
  rw [if_neg hn, List.length_map, List.length_range]

theorem chunks_size_le {l : List String} {n : Nat} :
    ∀ c ∈ chunks l n, c.length ≤ n := by
  intro c hc
  unfold chunks at hc
  by_cases hn : n = 0
  · rw [if_pos hn] at hc
    exact absurd hc (List.not_mem_nil c)
  · rw [if_neg hn] at hc
    obtain ⟨k, _, rfl⟩ := List.mem_map.mp hc
    rw [List.length_take]
    exact min_le_left _ _

theorem chunks_take (l : List String) (n : Nat) :
    ∀ m : Nat, ((List.range m).map fun k => (l.drop (k * n)).take n).flatten = l.take (m * n) := by
  intro m
  induction m with
  | zero => simp
  | succ m ih =>
    rw [List.range_succ, List.map_append, List.flatten_append, ih]
    have hmul : (m + 1) * n = m * n + n := by ring
    rw [hmul, List.take_add]
    simp

theorem chunks_flatten {l : List String} {n : Nat} (hn : n ≠ 0) :
    (chunks l n).flatten = l := by
  unfold chunks
  rw [if_neg hn, chunks_take l n]
  have key : l.length ≤ n * ((l.length + n - 1) / n) := by
    have hdm := Nat.div_add_mod (l.length + n - 1) n
    have hmod : (l.length + n - 1) % n < n := Nat.mod_lt _ (Nat.pos_of_ne_zero hn)
    generalize n * ((l.length + n - 1) / n) = p at hdm ⊢
    omega
  apply List.take_of_length_le
  rw [Nat.mul_comm]
  exact key

theorem ds250_nodup : ds250.Nodup := by
  refine List.Nodup.map ?_ (List.nodup_range 250)
  intro i j h
  have h2 := congrArg (fun s : String => s.data.length) h
  simpa [List.length_replicate] using h2

theorem deleteLoop_false_eq {repo_id name : String} :
    ∀ (chs : List (List String)) (i : Nat) (cs : List BatchCall)
      (sims : List (Nat × List String)),
      deleteLoop false repo_id name chs (i, cs, sims) =
        (i + chs.length,
         cs ++ (List.enumFrom (i + 1) chs).map fun p => ⟨p.1, repo_id, name, p.2⟩,
         sims) := by
  intro chs
  induction chs with
  | nil => intro i cs sims; simp [deleteLoop, List.enumFrom]
  | cons ch rest ih =>
    intro i cs sims
    unfold deleteLoop
    rw [if_neg Bool.false_ne_true]
    rw [ih (i + 1)]
    have h1 : i + 1 + rest.length = i + (ch :: rest).length := by
      simp only [List.length_cons]; omega
    rw [h1, List.append_assoc]
    rfl

theorem deleteLoop_true_calls {repo_id name : String} :
    ∀ (chs : List (List String)) (i : Nat) (cs : List BatchCall)
      (sims : List (Nat × List String)),
      (deleteLoop true repo_id name chs (i, cs, sims)).2.1 = cs := by
  intro chs
  induction chs with
  | nil => intro i cs sims; rfl
  | cons ch rest ih =>
    intro i cs sims
    unfold deleteLoop
    rw [if_pos rfl]
    exact ih (i + 1) cs _

theorem delete_images_calls {deletesha : List String} {deletetag : List TagDescriptor}
    {repo_id name : String} :
    (delete_images false deletesha deletetag repo_id name).calls =
      (List.enumFrom 1 (chunks deletesha 100)).map fun p => ⟨p.1, repo_id, name, p.2⟩ := by
  unfold delete_images
  by_cases h : deletesha.length ≥ 1
  · rw [if_pos h, deleteLoop_false_eq]
    simp
  · rw [if_neg h]
    have hnil : deletesha = [] := by
      cases deletesha with
      | nil => rfl
      | cons d ds => exact absurd (Nat.succ_le_succ (Nat.zero_le _)) h
    subst hnil
    rfl

/-! ## Lemmas about the repository loop -/

theorem runRegion_not_ignored {pol : Policy} {dryrun : Bool} {usage : List String}
    {nowAt2 : Nat → Nat → Int} :
    ∀ (repos : List RepoData) (ri : Nat) (out : List (Repository × ExecResult)),
      (∀ e ∈ out, pol.ignoreRepo e.1.repositoryUri = false) →
      ∀ e ∈ runRegion pol dryrun usage nowAt2 ri repos out,
        pol.ignoreRepo e.1.repositoryUri = false := by
  intro repos
  induction repos with
  | nil => intro ri out hout e he; exact hout e he
  | cons rd rest ih =>
    intro ri out hout e he
    unfold runRegion at he
    split at he
    next =>
      exact ih (ri + 1) out hout e he
    next plan hpr =>
      by_cases hd : plan.digests = []
      · rw [if_pos hd] at he
        exact ih (ri + 1) out hout e he
      · rw [if_neg hd] at he
        refine ih (ri + 1) _ ?_ e he
        intro e' he'
        rcases List.mem_append.mp he' with h' | h'
        · exact hout e' h'
        · have he2 := List.mem_singleton.mp h'
          subst he2
          by_cases hig : pol.ignoreRepo rd.repo.repositoryUri = true
          · exfalso
            unfold processRepository at hpr
            rw [if_pos hig] at hpr
            exact Option.noConfusion hpr
          · simpa using hig

/-! ## Claim theorems -/

/-- C6: in dry-run mode no mutating batch-delete call is ever issued, and the
descriptor report is identical to the one the non-dry-run path emits for the
same inputs. -/
theorem dry_run_no_calls_same_report :
    ∀ (deletesha : List String) (deletetag : List TagDescriptor) (repo_id name : String),
      (delete_images true deletesha deletetag repo_id name).calls = [] ∧
      (delete_images true deletesha deletetag repo_id name).report =
        (delete_images false deletesha deletetag repo_id name).report := by
  intro ds dt r n
  constructor
  · simp only [delete_images]
    by_cases h : ds.length ≥ 1
    · rw [if_pos h]
      exact deleteLoop_true_calls _ 0 [] []
    · rw [if_neg h]
  · rfl

/-- C7: the executor partitions the digest list into consecutive chunks of at
most 100, issues exactly one call per chunk, so `ceil(n/100)` calls for `n`
digests, numbers the batches 1, 2, ..., and on 250 distinct digests issues
exactly three batches of sizes 100, 100 and 50. -/
theorem delete_batching_spec :
    (∀ (deletesha : List String) (deletetag : List TagDescriptor) (repo_id name : String),
      (delete_images false deletesha deletetag repo_id name).calls.length =
        (deletesha.length + 99) / 100) ∧
    (∀ (deletesha : List String) (deletetag : List TagDescriptor) (repo_id name : String),
      ((delete_images false deletesha deletetag repo_id name).calls.map
        BatchCall.imageIds).flatten = deletesha) ∧
    (∀ (deletesha : List String) (deletetag : List TagDescriptor) (repo_id name : String),
      ((delete_images false deletesha deletetag repo_id name).calls.all
        fun c => decide (c.imageIds.length ≤ 100)) = true) ∧
    (∀ (deletesha : List String) (deletetag : List TagDescriptor) (repo_id name : String),
      (delete_images false deletesha deletetag repo_id name).calls.map
          BatchCall.batchNumber =
        List.range' 1 ((delete_images false deletesha deletetag repo_id name).calls.length)) ∧
    ds250.length = 250 ∧ ds250.Nodup ∧
    (delete_images false ds250 [] "r" "n").calls.map (fun c => c.imageIds.length) =
      [100, 100, 50] := by
  have hcalls_len : ∀ (ds : List String) (dt : List TagDescriptor) (r n : String),
      (delete_images false ds dt r n).calls.length = (ds.length + 99) / 100 := by
    intro ds dt r n
    rw [delete_images_calls, List.length_map, List.enumFrom_length,
      chunks_length (by decide : (100 : Nat) ≠ 0)]
    have h : ds.length + 100 - 1 = ds.length + 99 := by omega
    rw [h]
  refine ⟨hcalls_len, ?_, ?_, ?_, by rfl, ds250_nodup, by rfl⟩
  · intro ds dt r n
    rw [delete_images_calls, List.map_map]
    have hcomp : (BatchCall.imageIds ∘ fun p : Nat × List String =>
        (⟨p.1, r, n, p.2⟩ : BatchCall)) = Prod.snd := rfl
    rw [hcomp, List.enumFrom_map_snd, chunks_flatten (by decide : (100 : Nat) ≠ 0)]
  · intro ds dt r n
    rw [List.all_eq_true]
    intro c hc
    rw [delete_images_calls] at hc
    obtain ⟨p, hp, rfl⟩ := List.mem_map.mp hc
    have h2 : p.2 ∈ chunks ds 100 := by
      rw [← List.enumFrom_map_snd 1 (chunks ds 100)]
      exact List.mem_map.mpr ⟨p, hp, rfl⟩
    simpa using chunks_size_le _ h2
  · intro ds dt r n
    rw [delete_images_calls, List.map_map, List.length_map, List.enumFrom_length]
    have hcomp : (BatchCall.batchNumber ∘ fun p : Nat × List String =>
        (⟨p.1, r, n, p.2⟩ : BatchCall)) = Prod.fst := rfl
    rw [hcomp, List.enumFrom_map_fst]

/-- C8: a repository whose uri matches the ignore-repository pattern is not
classified (its plan is `none`) and the region loop never records an executor
result for an ignored repository. -/
theorem ignored_repository_skipped {pol : Policy} {usage : List String} {nowAt : Nat → Int}
    {repo : Repository} {images : List ImageDetail} {dryrun : Bool}
    {nowAt2 : Nat → Nat → Int} {repos : List RepoData}
    (h : pol.ignoreRepo repo.repositoryUri = true) :
    processRepository pol usage nowAt repo images = none ∧
    ∀ e ∈ runRegion pol dryrun usage nowAt2 0 repos [],
      pol.ignoreRepo e.1.repositoryUri = false := by
  constructor
  · unfold processRepository
    rw [if_pos h]
  · exact runRegion_not_ignored repos 0 []
      (by intro e he; exact absurd he (List.not_mem_nil e))

/-- C8 witness: the concrete region `reposC8` under `polC8`. -/
theorem ignored_repository_skipped_witness :
    processRepository polC8 [] now100 repoIg [⟨"di", some ["v"], 0⟩] = none ∧
    polC8.ignoreRepo repoOk.repositoryUri = false := by
  have h := @ignored_repository_skipped polC8 [] now100 repoIg [⟨"di", some ["v"], 0⟩]
    false (fun _ _ => 100) reposC8 (by decide)
  refine ⟨h.1, ?_⟩
  have hmem : (repoOk, delete_images false ["do"] [⟨"okuri:v", 0⟩] "rO" "nO") ∈
      runRegion polC8 false [] (fun _ _ => 100) 0 reposC8 [] := by decide
  exact h.2 _ hmem

theorem convert_eq_of_none {s : String} (hn : firstNumericRun s.toList = none) :
    convert_duration_to_timedelta s = Except.error DurationError.noInteger := by
  unfold convert_duration_to_timedelta
  rw [hn]

theorem convert_eq_of_some {s : String} {n : Nat} (hn : firstNumericRun s.toList = some n) :
    convert_duration_to_timedelta s =
      if 'd' ∈ s.toList then Except.ok (n : Int)
      else if 'w' ∈ s.toList then Except.ok (7 * (n : Int))
      else if 'm' ∈ s.toList then Except.ok (30 * (n : Int))
      else Except.error (DurationError.invalidDuration s) := by
  unfold convert_duration_to_timedelta
  rw [hn]

/-- C9: the duration parser succeeds exactly when the string contains a digit
and one of the unit letters d, w, m; on success the result is the first
numeric run combined with a unit letter occurring somewhere in the string. -/
theorem duration_parser_spec :
    (∀ s : String, isOkE (convert_duration_to_timedelta s) =
      ((firstNumericRun s.toList).isSome && hasUnitChar s)) ∧
    (∀ (s : String) (n : Nat), firstNumericRun s.toList = some n →
      ∀ t : Int, convert_duration_to_timedelta s = Except.ok t →
        ∃ c ∈ s.toList, (c = 'd' ∧ t = (n : Int)) ∨ (c = 'w' ∧ t = 7 * (n : Int)) ∨
          (c = 'm' ∧ t = 30 * (n : Int))) := by
  constructor
  · intro s
    cases hf : firstNumericRun s.toList with
    | none => rw [convert_eq_of_none hf]; simp [isOkE, hasUnitChar, hf]
    | some n =>
      rw [convert_eq_of_some hf]
      by_cases hd : 'd' ∈ s.toList
      · rw [if_pos hd]
        simp only [isOkE, hasUnitChar, Bool.true_and, hf, Option.isSome_some]
        symm
        simp only [Bool.or_eq_true, decide_eq_true_eq]
        exact Or.inl (Or.inl hd)
      · rw [if_neg hd]
        by_cases hw : 'w' ∈ s.toList
        · rw [if_pos hw]
          simp only [isOkE, hasUnitChar, Bool.true_and, hf, Option.isSome_some]
          symm
          simp only [Bool.or_eq_true, decide_eq_true_eq]
          exact Or.inl (Or.inr hw)
        · rw [if_neg hw]
          by_cases hm : 'm' ∈ s.toList
          · rw [if_pos hm]
            simp only [isOkE, hasUnitChar, Bool.true_and, hf, Option.isSome_some]
            symm
            simp only [Bool.or_eq_true, decide_eq_true_eq]
            exact Or.inr hm
          · rw [if_neg hm]
            simp only [isOkE, hasUnitChar, Bool.true_and, hf, Option.isSome_some]
            symm
            simp only [Bool.or_eq_false_iff, decide_eq_false_iff_not]
            exact ⟨⟨hd, hw⟩, hm⟩
  · intro s n hn t ht
    rw [convert_eq_of_some hn] at ht
    by_cases hd : 'd' ∈ s.toList
    · rw [if_pos hd] at ht
      injection ht with h
      exact ⟨'d', hd, Or.inl ⟨rfl, h.symm⟩⟩
    · rw [if_neg hd] at ht
      by_cases hw : 'w' ∈ s.toList
      · rw [if_pos hw] at ht
        injection ht with h
        exact ⟨'w', hw, Or.inr (Or.inl ⟨rfl, h.symm⟩)⟩
      · rw [if_neg hw] at ht
        by_cases hm : 'm' ∈ s.toList
        · rw [if_pos hm] at ht
          injection ht with h
          exact ⟨'m', hm, Or.inr (Or.inr ⟨rfl, h.symm⟩)⟩
        · rw [if_neg hm] at ht
          exact Except.noConfusion ht

/-- C9 witness: the string "40d" parses to 40 days via the unit letter d. -/
theorem duration_parser_spec_witness :
    ∃ c ∈ ("40d").toList,
      (c = 'd' ∧ (40 : Int) = ((40 : Nat) : Int)) ∨
      (c = 'w' ∧ (40 : Int) = 7 * ((40 : Nat) : Int)) ∨
      (c = 'm' ∧ (40 : Int) = 30 * ((40 : Nat) : Int)) :=
  duration_parser_spec.2 "40d" 40 (by decide) 40 rfl

/-- C10: real deletions happen exactly when the DRYRUN value lowercases to
"false"; other values (0, no, off, empty) select dry-run, and an absent
variable defaults to real deletion. -/
theorem dryrun_env_parsing :
    (∀ v : String, parseDryRun (some v) = false ↔ lowerStr v = "false") ∧
    parseDryRun none = false ∧
    parseDryRun (some "0") = true ∧ parseDryRun (some "no") = true ∧
    parseDryRun (some "off") = true ∧ parseDryRun (some "") = true := by
  refine ⟨?_, by decide, by decide, by decide, by decide, by decide⟩
  intro v
  simp only [parseDryRun, Option.getD]
  by_cases hv : lowerStr v = "false"
  · simp [hv]
  · simp [hv]

/-- C10 witness: the uppercase value FALSE enables real deletions. -/
theorem dryrun_env_parsing_witness : parseDryRun (some "FALSE") = false :=
  (dryrun_env_parsing.1 "FALSE").mpr (by decide)

/-- C2: candidacy is the disjunction of the age and count rules: a
non-candidate image is passed over unchanged, a candidate image at position
`j` with a surviving non-running tag is deleted; concretely, with
IMAGES_TO_KEEP = 2 three recent images lose the one at index 2, and with a
1-day window a single 40-day-old image is deleted despite index 0 < 100. -/
theorem deletion_candidacy_or_rule :
    (∀ (uri : String) (ig : String → Bool) (kc : Nat) (tl : Int) (rn : List String)
       (index : Nat) (img : ImageDetail) (rest : List ImageDetail)
       (acc : List String × List TagDescriptor),
       ¬(img.imagePushedAt < tl ∨ index ≥ kc) →
       deletionGo uri ig kc tl rn index (img :: rest) acc =
         deletionGo uri ig kc tl rn (index + 1) rest acc) ∧
    (∀ (uri : String) (ig : String → Bool) (kc : Nat) (tl : Int) (rn : List String)
       (images : List ImageDetail) (index : Nat) (acc : List String × List TagDescriptor)
       (j : Nat) (h : j < images.length) (t : String),
       ((images.get ⟨j, h⟩).imagePushedAt < tl ∨ index + j ≥ kc) →
       t ∈ (images.get ⟨j, h⟩).imageTags.getD [] →
       tagSkipped ig t = false →
       (images.get ⟨j, h⟩).imageDigest ∉ rn →
       (images.get ⟨j, h⟩).imageDigest ∈ (deletionGo uri ig kc tl rn index images acc).1) ∧
    processRepository polA [] now100 repoA imgsA =
      some ⟨["d3"], [⟨"repo:t3", 30⟩]⟩ ∧
    processRepository polB [] now100 repoA imgsB =
      some ⟨["d1"], [⟨"repo:t1", 60⟩]⟩ := by
  refine ⟨?_, ?_, by decide, by decide⟩
  · intro uri ig kc tl rn index img rest acc hc
    conv_lhs => unfold deletionGo
    rw [if_neg hc]
  · intro uri ig kc tl rn images index acc j h t hc ht hts hrn
    exact (deletionGo_pos images index acc j h t hc ht hts hrn).1

/-- C2 witness: a recent image below the keep count is skipped, and an image
past the keep count is deleted. -/
theorem deletion_candidacy_or_rule_witness :
    deletionGo "repo" noIgnore 2 10 [] 0 [⟨"d1", some ["t1"], 50⟩] ([], []) =
      deletionGo "repo" noIgnore 2 10 [] 1 [] ([], []) ∧
    ("d3" : String) ∈
      (deletionGo "repo" noIgnore 2 10 [] 2 [⟨"d3", some ["t3"], 30⟩] ([], [])).1 := by
  constructor
  · exact deletion_candidacy_or_rule.1 "repo" noIgnore 2 10 [] 0 ⟨"d1", some ["t1"], 50⟩ []
      ([], []) (by decide)
  · exact deletion_candidacy_or_rule.2.1 "repo" noIgnore 2 10 [] [⟨"d3", some ["t3"], 30⟩] 2
      ([], []) 0 (by decide) "t3" (Or.inr (by decide)) (by decide) (by decide) (by decide)

/-- C5: in a non-ignored repository, every untagged image's digest is in the
delete-digest set, independent of age, position, policy and usage. -/
theorem untagged_always_deleted {pol : Policy} {usage : List String} {nowAt : Nat → Int}
    {repo : Repository} {images : List ImageDetail} {img : ImageDetail}
    (hig : pol.ignoreRepo repo.repositoryUri = false)
    (hmem : img ∈ images) (hunt : img.imageTags = none) :
    ∀ plan, processRepository pol usage nowAt repo images = some plan →
      img.imageDigest ∈ plan.digests := by
  intro plan hplan
  have hds : img.imageDigest ∈ untaggedDigests images [] :=
    (mem_untaggedDigests images []).mpr (Or.inr ⟨img, hmem, hunt, rfl⟩)
  unfold processRepository at hplan
  rw [hig, if_neg Bool.false_ne_true] at hplan
  split at hplan
  next hscan =>
    have h := Option.some.inj hplan
    subst h
    exact hds
  next tl hscan =>
    have h := Option.some.inj hplan
    subst h
    exact (deletionGo_mono _ 0 _).1 hds

/-- C5 witness: the repository with five untagged and three tagged images keeps
all five untagged digests in the delete set. -/
theorem untagged_always_deleted_witness :
    ("u1" : String) ∈ (⟨["u1", "u2", "u3", "u4", "u5"], []⟩ : DeletionPlan).digests ∧
    ("u2" : String) ∈ (⟨["u1", "u2", "u3", "u4", "u5"], []⟩ : DeletionPlan).digests ∧
    ("u3" : String) ∈ (⟨["u1", "u2", "u3", "u4", "u5"], []⟩ : DeletionPlan).digests ∧
    ("u4" : String) ∈ (⟨["u1", "u2", "u3", "u4", "u5"], []⟩ : DeletionPlan).digests ∧
    ("u5" : String) ∈ (⟨["u1", "u2", "u3", "u4", "u5"], []⟩ : DeletionPlan).digests := by
  refine ⟨?_, ?_, ?_, ?_, ?_⟩
  · exact @untagged_always_deleted pol5 [] now100 repoA imgsC5 ⟨"u1", none, 1⟩
      (by decide) (by decide) rfl ⟨["u1", "u2", "u3", "u4", "u5"], []⟩ (by decide)
  · exact @untagged_always_deleted pol5 [] now100 repoA imgsC5 ⟨"u2", none, 2⟩
      (by decide) (by decide) rfl ⟨["u1", "u2", "u3", "u4", "u5"], []⟩ (by decide)
  · exact @untagged_always_deleted pol5 [] now100 repoA imgsC5 ⟨"u3", none, 3⟩
      (by decide) (by decide) rfl ⟨["u1", "u2", "u3", "u4", "u5"], []⟩ (by decide)
  · exact @untagged_always_deleted pol5 [] now100 repoA imgsC5 ⟨"u4", none, 4⟩
      (by decide) (by decide) rfl ⟨["u1", "u2", "u3", "u4", "u5"], []⟩ (by decide)
  · exact @untagged_always_deleted pol5 [] now100 repoA imgsC5 ⟨"u5", none, 5⟩
      (by decide) (by decide) rfl ⟨["u1", "u2", "u3", "u4", "u5"], []⟩ (by decide)

/-- C3 counterexample: the tag "xlatest" is neither exactly "latest" nor
matched by the (match-nothing) ignore pattern, yet the 100-day-old candidate
image carrying it is skipped entirely: the claimed exact-text exemption is
refuted. -/
theorem latest_exemption_exact_cex :
    ("xlatest" : String) ≠ "latest" ∧ polB.ignoreTag "xlatest" = false ∧
    processRepository polB [] now100 repoA [imgX] = some ⟨[], []⟩ := by
  refine ⟨by decide, by decide, by decide⟩

/-- C3 amended: a tag is skipped exactly when "latest" occurs in it as a
substring or the ignore pattern matches; consequently no descriptor's imageUrl
ends in ":latest" (in particular the tag "latest" never appears). -/
theorem latest_exemption_substring :
    (∀ (uri : String) (ig : String → Bool) (rn : List String) (dg : String) (pa : Int)
       (tag : String) (rest : List String) (acc : List String × List TagDescriptor),
       tagSkipped ig tag = true →
       deleteTagLoop uri ig rn dg pa (tag :: rest) acc =
         deleteTagLoop uri ig rn dg pa rest acc) ∧
    (∀ (uri : String) (ig : String → Bool) (rn : List String) (dg : String) (pa : Int)
       (tags : List String) (acc : List String × List TagDescriptor) (t : String),
       t ∈ tags → tagSkipped ig t = false → dg ∉ rn →
       (⟨uri ++ ":" ++ t, pa⟩ : TagDescriptor) ∈ (deleteTagLoop uri ig rn dg pa tags acc).2) ∧
    (∀ (pol : Policy) (usage : List String) (nowAt : Nat → Int) (repo : Repository)
       (images : List ImageDetail) (plan : DeletionPlan),
       processRepository pol usage nowAt repo images = some plan →
       ∀ D ∈ plan.descriptors, ∃ t, tagSkipped pol.ignoreTag t = false ∧
         D.imageUrl = repo.repositoryUri ++ ":" ++ t) ∧
    (∀ (pol : Policy) (usage : List String) (nowAt : Nat → Int) (repo : Repository)
       (images : List ImageDetail) (plan : DeletionPlan),
       processRepository pol usage nowAt repo images = some plan →
       ∀ D ∈ plan.descriptors, ¬((":latest").toList <:+ D.imageUrl.toList)) := by
  have hprov : ∀ (pol : Policy) (usage : List String) (nowAt : Nat → Int) (repo : Repository)
      (images : List ImageDetail) (plan : DeletionPlan),
      processRepository pol usage nowAt repo images = some plan →
      ∀ D ∈ plan.descriptors, ∃ t, tagSkipped pol.ignoreTag t = false ∧
        D.imageUrl = repo.repositoryUri ++ ":" ++ t := by
    intro pol usage nowAt repo images plan hplan D hD
    unfold processRepository at hplan
    by_cases hig : pol.ignoreRepo repo.repositoryUri = true
    · rw [if_pos hig] at hplan
      exact Option.noConfusion hplan
    · rw [if_neg hig] at hplan
      split at hplan
      next hscan =>
        have h := Option.some.inj hplan
        subst h
        exact absurd hD (List.not_mem_nil D)
      next tl hscan =>
        have h := Option.some.inj hplan
        subst h
        rcases deletionGo_snd_sub _ 0 _ D hD with h | ⟨img2, _, t, _, hts, _, rfl⟩
        · exact absurd h (List.not_mem_nil D)
        · exact ⟨t, hts, rfl⟩
  refine ⟨?_, ?_, hprov, ?_⟩
  · intro uri ig rn dg pa tag rest acc hs
    conv_lhs => unfold deleteTagLoop
    rw [if_pos hs]
  · intro uri ig rn dg pa tags acc t ht hts hrn
    exact (deleteTagLoop_snd_mem tags acc _).mpr (Or.inr ⟨hrn, t, ht, hts, rfl⟩)
  · intro pol usage nowAt repo images plan hplan D hD hsuf
    obtain ⟨t, hts, hurl⟩ := hprov pol usage nowAt repo images plan hplan D hD
    rw [hurl] at hsuf
    have hcs : containsSubstr "latest" t = true := suffix_colon_latest hsuf
    unfold tagSkipped at hts
    rw [hcs] at hts
    exact Bool.noConfusion hts

/-- C3 amended witness: a skipped substring tag, an included clean tag, and the
provenance facts at the concrete ScenarioA plan. -/
theorem latest_exemption_substring_witness :
    deleteTagLoop "repo" noIgnore [] "dx" 0 ["xlatest"] ([], []) =
      deleteTagLoop "repo" noIgnore [] "dx" 0 [] ([], []) ∧
    (⟨"repo:ok", 0⟩ : TagDescriptor) ∈
      (deleteTagLoop "repo" noIgnore [] "d" 0 ["ok"] ([], [])).2 ∧
    (∃ t, tagSkipped polA.ignoreTag t = false ∧
      (⟨"repo:t3", 30⟩ : TagDescriptor).imageUrl = "repo" ++ ":" ++ t) ∧
    ¬((":latest").toList <:+ (⟨"repo:t3", 30⟩ : TagDescriptor).imageUrl.toList) := by
  refine ⟨?_, ?_, ?_, ?_⟩
  · exact latest_exemption_substring.1 "repo" noIgnore [] "dx" 0 "xlatest" [] ([], [])
      (by decide)
  · exact latest_exemption_substring.2.1 "repo" noIgnore [] "d" 0 ["ok"] ([], []) "ok"
      (by decide) (by decide) (by decide)
  · exact latest_exemption_substring.2.2.1 polA [] now100 repoA imgsA
      ⟨["d3"], [⟨"repo:t3", 30⟩]⟩ (by decide) ⟨"repo:t3", 30⟩ (by decide)
  · exact latest_exemption_substring.2.2.2 polA [] now100 repoA imgsA
      ⟨["d3"], [⟨"repo:t3", 30⟩]⟩ (by decide) ⟨"repo:t3", 30⟩ (by decide)

/-- C1: one running tag protects the whole image record: if some tag of the
image is in the usage set (in particular one that is not itself exempted),
then with registry-unique digests and tags neither the digest nor any of the
image's tag descriptors appears in the plan. -/
theorem running_protection_digest_scoped {pol : Policy} {usage : List String}
    {nowAt : Nat → Int} {repo : Repository} {images : List ImageDetail}
    {img : ImageDetail} {tags : List String}
    (hig : pol.ignoreRepo repo.repositoryUri = false)
    (hmem : img ∈ images) (htags : img.imageTags = some tags)
    (hrun : ∃ t ∈ tags, repo.repositoryUri ++ ":" ++ t ∈ usage ∧
      tagSkipped pol.ignoreTag t = false)
    (hdig : ∀ img2 ∈ images, img2.imageTags = none → img2.imageDigest ≠ img.imageDigest)
    (htag : ∀ img2 ∈ images, img2 ≠ img → ∀ t ∈ img2.imageTags.getD [], t ∉ tags) :
    ∀ plan, processRepository pol usage nowAt repo images = some plan →
      img.imageDigest ∉ plan.digests ∧
      ∀ t ∈ tags, (⟨repo.repositoryUri ++ ":" ++ t, img.imagePushedAt⟩ : TagDescriptor) ∉
        plan.descriptors := by
  intro plan hplan
  obtain ⟨t0, ht0, hu0, _⟩ := hrun
  have himgT : img ∈ sortDesc (images.filter fun im => im.imageTags.isSome) := by
    rw [mem_sortDesc]
    exact List.mem_filter.mpr ⟨hmem, by rw [htags]; rfl⟩
  have hrundig : img.imageDigest ∈
      (runningGo repo.repositoryUri usage nowAt pol.keepDuration 0
        (sortDesc (images.filter fun im => im.imageTags.isSome)) ([], none)).1 := by
    refine runningGo_pos _ 0 _ img t0 himgT ?_ hu0
    rw [htags]
    exact ht0
  have hnotun : img.imageDigest ∉ untaggedDigests images [] := by
    intro hin
    rcases (mem_untaggedDigests images []).mp hin with h | ⟨img2, hm2, hn2, he2⟩
    · exact absurd h (List.not_mem_nil _)
    · exact hdig img2 hm2 hn2 he2.symm
  unfold processRepository at hplan
  rw [hig, if_neg Bool.false_ne_true] at hplan
  split at hplan
  next hscan =>
    have h := Option.some.inj hplan
    subst h
    constructor
    · exact hnotun
    · intro t _ hD
      exact absurd hD (List.not_mem_nil _)
  next tl hscan =>
    have h := Option.some.inj hplan
    subst h
    constructor
    · intro hin
      rcases deletionGo_fst_sub _ 0 _ _ hin with h | ⟨img2, _, _, hnrn, _⟩
      · exact hnotun h
      · exact hnrn hrundig
    · intro t ht hD
      rcases deletionGo_snd_sub _ 0 _ _ hD with h | ⟨img2, hm2, t2, ht2, _, hnrn2, heq⟩
      · exact absurd h (List.not_mem_nil _)
      · have hurl : repo.repositoryUri ++ ":" ++ t = repo.repositoryUri ++ ":" ++ t2 :=
          congrArg TagDescriptor.imageUrl heq
        have ht2t : t2 = t := (uri_tag_cancel hurl).symm
        have hm2im : img2 ∈ images := (List.mem_filter.mp (mem_sortDesc.mp hm2)).1
        by_cases heqimg : img2 = img
        · subst heqimg
          exact hnrn2 hrundig
        · have htin : t2 ∈ tags := ht2t ▸ ht
          exact htag img2 hm2im heqimg t2 ht2 htin

/-- C1 witness: the single running image of `imgRun` under `usageW` yields an
empty plan. -/
theorem running_protection_digest_scoped_witness :
    ("dRun" : String) ∉ (⟨[], []⟩ : DeletionPlan).digests ∧
    (⟨"repo:run", 5⟩ : TagDescriptor) ∉ (⟨[], []⟩ : DeletionPlan).descriptors := by
  have h := @running_protection_digest_scoped polB usageW now100 repoA [imgRun] imgRun
    ["run"] (by decide) (by decide) rfl ⟨"run", by decide, by decide, by decide⟩
    (by decide) (by decide) ⟨[], []⟩ (by decide)
  exact ⟨h.1, h.2 "run" (by decide)⟩

/-- C4: the cutoff is recomputed on every image of the running scan (the value
carried in is discarded), the final value comes from the clock at the last
image, and exactly that value is the single time limit applied to every
image's candidacy test in the deletion loop. -/
theorem time_limit_last_image_cutoff :
    (∀ (uri : String) (usage : List String) (nowAt : Nat → Int) (kd : Int) (i : Nat)
       (img : ImageDetail) (rest : List ImageDetail) (rs : List String)
       (tl0 tl1 : Option Int),
       runningGo uri usage nowAt kd i (img :: rest) (rs, tl0) =
         runningGo uri usage nowAt kd i (img :: rest) (rs, tl1)) ∧
    (∀ (uri : String) (usage : List String) (nowAt : Nat → Int) (kd : Int) (i : Nat)
       (images : List ImageDetail) (acc : List String × Option Int),
       images ≠ [] →
       (runningGo uri usage nowAt kd i images acc).2 =
         some (nowAt (i + images.length - 1) - kd)) ∧
    (∀ (pol : Policy) (usage : List String) (nowAt : Nat → Int) (repo : Repository)
       (images : List ImageDetail),
       pol.ignoreRepo repo.repositoryUri = false →
       sortDesc (images.filter fun im => im.imageTags.isSome) ≠ [] →
       processRepository pol usage nowAt repo images =
         some ⟨(deletionGo repo.repositoryUri pol.ignoreTag pol.imagesToKeep
             (nowAt ((sortDesc (images.filter fun im => im.imageTags.isSome)).length - 1) -
               pol.keepDuration)
             (runningGo repo.repositoryUri usage nowAt pol.keepDuration 0
               (sortDesc (images.filter fun im => im.imageTags.isSome)) ([], none)).1
             0 (sortDesc (images.filter fun im => im.imageTags.isSome))
             (untaggedDigests images [], [])).1,
           (deletionGo repo.repositoryUri pol.ignoreTag pol.imagesToKeep
             (nowAt ((sortDesc (images.filter fun im => im.imageTags.isSome)).length - 1) -
               pol.keepDuration)
             (runningGo repo.repositoryUri usage nowAt pol.keepDuration 0
               (sortDesc (images.filter fun im => im.imageTags.isSome)) ([], none)).1
             0 (sortDesc (images.filter fun im => im.imageTags.isSome))
             (untaggedDigests images [], [])).2⟩) := by
  refine ⟨?_, ?_, ?_⟩
  · intro uri usage nowAt kd i img rest rs tl0 tl1
    rfl
  · intro uri usage nowAt kd i images acc hne
    exact runningGo_snd images i acc hne
  · intro pol usage nowAt repo images hig hne
    unfold processRepository
    rw [hig, if_neg Bool.false_ne_true]
    rw [runningGo_snd _ 0 _ hne]
    simp only [Nat.zero_add]

/-- C4 witness: with a clock advancing one unit per iteration and two images,
the effective cutoff is taken from the second (last) iteration. -/
theorem time_limit_last_image_cutoff_witness :
    runningGo "repo" [] nowC4 1 0 imgsC4 ([], none) =
      runningGo "repo" [] nowC4 1 0 imgsC4 ([], some 7) ∧
    (runningGo "repo" [] nowC4 1 0 imgsC4 ([], none)).2 =
      some (nowC4 (0 + imgsC4.length - 1) - 1) ∧
    processRepository polB [] nowC4 repoA imgsC4 =
      some ⟨(deletionGo repoA.repositoryUri polB.ignoreTag polB.imagesToKeep
          (nowC4 ((sortDesc (imgsC4.filter fun im => im.imageTags.isSome)).length - 1) -
            polB.keepDuration)
          (runningGo repoA.repositoryUri [] nowC4 polB.keepDuration 0
            (sortDesc (imgsC4.filter fun im => im.imageTags.isSome)) ([], none)).1
          0 (sortDesc (imgsC4.filter fun im => im.imageTags.isSome))
          (untaggedDigests imgsC4 [], [])).1,
        (deletionGo repoA.repositoryUri polB.ignoreTag polB.imagesToKeep
          (nowC4 ((sortDesc (imgsC4.filter fun im => im.imageTags.isSome)).length - 1) -
            polB.keepDuration)
          (runningGo repoA.repositoryUri [] nowC4 polB.keepDuration 0
            (sortDesc (imgsC4.filter fun im => im.imageTags.isSome)) ([], none)).1
          0 (sortDesc (imgsC4.filter fun im => im.imageTags.isSome))
          (untaggedDigests imgsC4 [], [])).2⟩ := by
  refine ⟨?_, ?_, ?_⟩
  · exact time_limit_last_image_cutoff.1 "repo" [] nowC4 1 0 ⟨"a", some ["x"], 3⟩
      [⟨"b", some ["y"], 2⟩] [] none (some 7)
  · exact time_limit_last_image_cutoff.2.1 "repo" [] nowC4 1 0 imgsC4 ([], none) (by decide)
  · exact time_limit_last_image_cutoff.2.2 polB [] nowC4 repoA imgsC4 (by decide) (by decide)

end EcrCleanup
